import Mathlib

/-!
Verification of the Anonydoc text-transformation core (`tools/entipy`).

Texts are embedded as `List Char`.  Character offsets coming from the
external detector are embedded as `Int`, because the Python code uses them
directly in slice expressions, whose semantics are defined for arbitrary
integers.  All definitions in this file are shallow embeddings of the
functions in `tools/entipy/pseudonymizer.py`, `tools/entipy/core.py` and
`tools/entipy/utils.py`; Python dictionaries are embedded as
insertion-ordered association lists with the update/lookup discipline of
`dict`.
-/

namespace Anonydoc

/-- Python slice-endpoint resolution: for a slice endpoint `i` on a string of
length `n`, negative values count from the end and all values are clamped to
`[0, n]`.  This is the semantics of `s[a:b]`, `s[:a]`, `s[a:]`. -/
def pyResolve (n : Nat) (i : Int) : Nat :=
  if i < 0 then ((n : Int) + i).toNat else min i.toNat n

/-- Python `s[a:b]` on a `List Char`. -/
def pySlice (s : List Char) (a b : Int) : List Char :=
  (s.take (pyResolve s.length b)).drop (pyResolve s.length a)

/-- Python `s[:b]`. -/
def pyTakeTo (s : List Char) (b : Int) : List Char :=
  s.take (pyResolve s.length b)

/-- Python `s[a:]`. -/
def pyDropFrom (s : List Char) (a : Int) : List Char :=
  s.drop (pyResolve s.length a)

/-- Python `l[i]` on a list (integer index, negative indices count from the
end, out-of-range indices raise `IndexError`, embedded as `none`). -/
def pyIndex {α : Type} (l : List α) (i : Int) : Option α :=
  if 0 ≤ i then l.get? i.toNat
  else if 0 ≤ (l.length : Int) + i then l.get? ((l.length : Int) + i).toNat
  else none

/-- Association-list lookup (first match), the embedding of Python `dict`
key lookup and of the `k in d` membership test. -/
def alookup {α β : Type} [DecidableEq α] (k : α) : List (α × β) → Option β
  | [] => none
  | kv :: rest => if kv.1 = k then some kv.2 else alookup k rest

/-- Python `dict` assignment `d[k] = v`: an existing key keeps its insertion
position and gets the new value; a fresh key is appended at the end. -/
def dictSet {α β : Type} [DecidableEq α] (d : List (α × β)) (k : α) (v : β) :
    List (α × β) :=
  if (alookup k d).isSome then d.map (fun kv => if kv.1 = k then (k, v) else kv)
  else d ++ [(k, v)]

/-- Python `dict` lookup `d.get(k, default)`. -/
def dictGetD {α β : Type} [DecidableEq α] (d : List (α × β)) (k : α) (v₀ : β) : β :=
  (alookup k d).getD v₀

/-- Decimal digit character, as produced by Python `str` on a natural
number digit. -/
def decDigit (n : Nat) : Char :=
  match n with
  | 0 => '0' | 1 => '1' | 2 => '2' | 3 => '3' | 4 => '4'
  | 5 => '5' | 6 => '6' | 7 => '7' | 8 => '8' | _ => '9'

/-- Fuelled decimal printer (the fuel makes the definition structurally
recursive so that the kernel can evaluate it; `natChars` supplies enough
fuel for the recursion to complete). -/
def natCharsAux : Nat → Nat → List Char
  | 0, _ => []
  | fuel + 1, n =>
    if n < 10 then [decDigit n]
    else natCharsAux fuel (n / 10) ++ [decDigit (n % 10)]

/-- Decimal representation of a natural number, as produced by Python
`str(n)` inside the f-string `f"{label}_{counter}"`. -/
def natChars (n : Nat) : List Char := natCharsAux (n + 1) n

/-- State of `Pseudonymizer` (`tools/entipy/pseudonymizer.py`):
`counter` is the per-label `defaultdict(int)`, `pseudonym_table` maps
original text to pseudonym and `reverse_table` maps pseudonym back to
original text.  The association lists record the `dict` insertion order,
which `reverse` iterates over. -/
structure Pseudonymizer where
  counter : List (List Char × Nat)
  pseudonym_table : List (List Char × List Char)
  reverse_table : List (List Char × List Char)
  deriving DecidableEq, Repr

/-- `Pseudonymizer.__init__`: empty counter and tables. -/
def Pseudonymizer.init : Pseudonymizer :=
  { counter := [], pseudonym_table := [], reverse_table := [] }

/-- The pseudonym string `f"{label}_{counter}"`. -/
def mkPseudonym (label : List Char) (c : Nat) : List Char :=
  label ++ '_' :: natChars c

/-- `Pseudonymizer.generate`: return the existing pseudonym for
`original_text` if there is one; otherwise increment the per-label counter,
build `f"{label}_{counter}"` and register it in both tables. -/
def Pseudonymizer.generate (s : Pseudonymizer) (label original_text : List Char) :
    List Char × Pseudonymizer :=
  match alookup original_text s.pseudonym_table with
  | some p => (p, s)
  | none =>
    let c := dictGetD s.counter label 0 + 1
    let pseudonym := mkPseudonym label c
    (pseudonym,
      { counter := dictSet s.counter label c,
        pseudonym_table := dictSet s.pseudonym_table original_text pseudonym,
        reverse_table := dictSet s.reverse_table pseudonym original_text })

/-- `Pseudonymizer.get_table`. -/
def Pseudonymizer.get_table (s : Pseudonymizer) : List (List Char × List Char) :=
  s.pseudonym_table

/-- Fuelled scanner of Python `text.replace(p, o)` for a nonempty pattern:
scan left to right; on a match emit the replacement and continue after the
matched pattern, otherwise copy one character.  The fuel makes the
definition structural; `replaceAll` supplies enough fuel. -/
def replaceAllAux (p o : List Char) : Nat → List Char → List Char
  | 0, s => s
  | fuel + 1, s =>
    match s with
    | [] => []
    | ch :: rest =>
      if p.isPrefixOf (ch :: rest) then
        o ++ replaceAllAux p o fuel ((ch :: rest).drop p.length)
      else ch :: replaceAllAux p o fuel rest

/-- Python `text.replace(p, o)` (replace every occurrence, left to right,
without rescanning the replacement).  For the empty pattern Python inserts
the replacement before every character and at the end. -/
def replaceAll (p o s : List Char) : List Char :=
  if p = [] then o ++ s.flatMap (fun c => c :: o)
  else replaceAllAux p o s.length s

/-- `Pseudonymizer.reverse`: fold `text.replace(pseudo, original)` over the
`reverse_table` items in dict (insertion) order. -/
def Pseudonymizer.reverse (s : Pseudonymizer) (text : List Char) : List Char :=
  s.reverse_table.foldl (fun t po => replaceAll po.1 po.2 t) text

/-- A raw prediction of the external detector, as consumed by
`TextEntityProcessor._build_processing` (`tools/entipy/core.py`): a dict
with `start`, `end`, `label`, `text` and (optionally, read through
`raw.get('score', 0.0)`) `score`.  The Python field `end` is a reserved
word in Lean and is embedded as `stop`. -/
structure RawEntity where
  start : Int
  stop : Int
  label : List Char
  text : List Char
  score? : Option Rat
  deriving DecidableEq, Repr

/-- `models.CharPosition` (field `end` embedded as `stop`). -/
structure CharPosition where
  start : Int
  stop : Int
  deriving DecidableEq, Repr

/-- `models.WordPosition` (field `end` embedded as `stop`). -/
structure WordPosition where
  start : Int
  stop : Int
  deriving DecidableEq, Repr

/-- `models.Entity`. -/
structure Entity where
  label : List Char
  text : List Char
  replacement_text : List Char
  detection_confidence : Rat
  char_position : CharPosition
  word_position : WordPosition
  deriving DecidableEq, Repr

/-- `models.ContextSnippet`. -/
structure ContextSnippet where
  entity : Entity
  left : List Char
  right : List Char
  window : Nat
  deriving DecidableEq, Repr

/-- `models.ProcessingResult` (only the data fields; the statistics
methods are not involved in any claim). -/
structure ProcessingResult where
  original_text : List Char
  processed_text : List Char
  entities : List Entity
  contexts : List ContextSnippet
  pseudonym_table : List (List Char × List Char)
  deriving DecidableEq, Repr

/-- Whitespace as matched by the `\S+` regular expression of
`_compute_word_spans`; the ASCII whitespace characters (the embedding
restricts Python's `\s` to its ASCII part). -/
def isPySpace (c : Char) : Bool :=
  c = ' ' ∨ c = '\t' ∨ c = '\n' ∨ c = '\r' ∨ c = '\x0b' ∨ c = '\x0c'

/-- Scanner for `_compute_word_spans`: walk the text left to right at
position `i`; `cur? = some ws` records the start of the currently open
maximal non-whitespace run. -/
def wordSpansGo : List Char → Nat → Option Nat → List (Nat × Nat)
  | [], _, none => []
  | [], i, some ws => [(ws, i)]
  | c :: rest, i, none =>
    if isPySpace c then wordSpansGo rest (i + 1) none
    else wordSpansGo rest (i + 1) (some i)
  | c :: rest, i, some ws =>
    if isPySpace c then (ws, i) :: wordSpansGo rest (i + 1) none
    else wordSpansGo rest (i + 1) (some ws)

/-- `TextEntityProcessor._compute_word_spans`: the `(m.start(), m.end())`
spans of the maximal non-whitespace runs (`re.finditer(r"\S+", text)`), in
ascending order. -/
def computeWordSpans (text : List Char) : List (Nat × Nat) :=
  wordSpansGo text 0 none

/-- First loop of `_char_to_word_index`: index of the first span with
`ws <= char_idx < we`. -/
def findInside (c : Int) : List (Nat × Nat) → Option Nat
  | [] => none
  | (ws, we) :: rest =>
    if (ws : Int) ≤ c ∧ c < (we : Int) then some 0
    else (findInside c rest).map (· + 1)

/-- Second loop of `_char_to_word_index`: index of the first span with
`char_idx < ws`. -/
def findBefore (c : Int) : List (Nat × Nat) → Option Nat
  | [] => none
  | (ws, _) :: rest =>
    if c < (ws : Int) then some 0
    else (findBefore c rest).map (· + 1)

/-- `TextEntityProcessor._char_to_word_index`: return the index of the span
containing `char_idx`; failing that, `max(0, i - 1)` for the first span `i`
starting after `char_idx`; failing that, `len(word_spans) - 1` (which is
`-1` on an empty span list, hence the `Int` result type). -/
def char_to_word_index (char_idx : Int) (word_spans : List (Nat × Nat)) : Int :=
  match findInside char_idx word_spans with
  | some i => (i : Int)
  | none =>
    match findBefore char_idx word_spans with
    | some i => max 0 ((i : Int) - 1)
    | none => (word_spans.length : Int) - 1

/-- The first loop of `_build_processing` over the candidates sorted by
`start` descending: compute the replacement (possibly updating the rule's
state `σ`, which embeds the `Pseudonymizer` mutation of the pseudonymize
rule), build the `Entity`, append it, and splice
`redacted[:start] + replacement + redacted[end:]`. -/
def buildLoop {σ : Type} (word_spans : List (Nat × Nat))
    (rule : σ → List Char → List Char → List Char × σ) :
    List RawEntity → σ → List Char → List Entity × List Char × σ
  | [], st, redacted => ([], redacted, st)
  | raw :: rest, st, redacted =>
    let rs := rule st raw.label raw.text
    let w_start := char_to_word_index raw.start word_spans
    let w_end := char_to_word_index (raw.stop - 1) word_spans + 1
    let ent : Entity :=
      { label := raw.label
        text := raw.text
        replacement_text := rs.1
        detection_confidence := raw.score?.getD 0
        char_position := { start := raw.start, stop := raw.stop }
        word_position := { start := w_start, stop := w_end } }
    let redacted' := pyTakeTo redacted raw.start ++ rs.1 ++ pyDropFrom redacted raw.stop
    let rec' := buildLoop word_spans rule rest rs.2 redacted'
    (ent :: rec'.1, rec'.2.1, rec'.2.2)

/-- `sorted(raw_entities, key=lambda e: e['start'], reverse=True)`:
Python's stable descending sort by `start`.  Python's sort is stable, so
any stable sort by the same key computes the same list; the embedding uses
the structural (kernel-evaluable) stable insertion sort. -/
def sortByStartDesc (raws : List RawEntity) : List RawEntity :=
  raws.insertionSort (fun a b => b.start ≤ a.start)

/-- The entity/replacement phase of `_build_processing`: word spans of the
original text, candidates sorted by `start` descending, then `buildLoop`.
Returns (entities in collection order, processed text, final rule state). -/
def buildEntities {σ : Type} (text : List Char) (raws : List RawEntity)
    (rule : σ → List Char → List Char → List Char × σ) (st : σ) :
    List Entity × List Char × σ :=
  buildLoop (computeWordSpans text) rule (sortByStartDesc raws) st text

/-- The context-snippet computation of `_build_processing` for one entity:
`cw_start = max(0, ws - window)`, `cw_end = min(total_words, we + window)`,
`cs = word_spans[cw_start][0]`, `ce = word_spans[cw_end - 1][1]`,
`left = text[cs:start]`, `right = text[end:ce]`.  The two list indexings
raise `IndexError` when out of range, embedded as `none`. -/
def buildContext (text : List Char) (word_spans : List (Nat × Nat))
    (window : Nat) (ent : Entity) : Option ContextSnippet :=
  let total_words := word_spans.length
  let cw_start : Int := max 0 (ent.word_position.start - (window : Int))
  let cw_end : Int := min (total_words : Int) (ent.word_position.stop + (window : Int))
  match pyIndex word_spans cw_start, pyIndex word_spans (cw_end - 1) with
  | some sp₁, some sp₂ =>
    some { entity := ent
           left := pySlice text (sp₁.1 : Int) ent.char_position.start
           right := pySlice text ent.char_position.stop ((sp₂.2 : Int))
           window := window }
  | _, _ => none

/-- The context loop of `_build_processing` over all collected entities. -/
def buildContexts (text : List Char) (word_spans : List (Nat × Nat))
    (window : Nat) (entities : List Entity) : Option (List ContextSnippet) :=
  entities.mapM (buildContext text word_spans window)

/-- The `pseudonym_map` dict comprehension of `_build_processing`:
`{ent.text: ent.replacement_text for ent in entities if ent.replacement_text}`
(insertion order, last write wins, empty replacements skipped). -/
def pseudonymMap (entities : List Entity) : List (List Char × List Char) :=
  entities.foldl
    (fun d ent => if ent.replacement_text ≠ [] then dictSet d ent.text ent.replacement_text else d)
    []

/-- `TextEntityProcessor._build_processing`: entities and processed text,
then context snippets (the call raises, embedded as `none`, when the
context computation indexes the word-span list out of range), then the
flat replacement map.  Also returns the final rule state. -/
def build_processing {σ : Type} (text : List Char) (raws : List RawEntity)
    (rule : σ → List Char → List Char → List Char × σ) (st : σ) (window : Nat) :
    Option (ProcessingResult × σ) :=
  let word_spans := computeWordSpans text
  let er := buildLoop word_spans rule (sortByStartDesc raws) st text
  match buildContexts text word_spans window er.1 with
  | some contexts =>
    some ({ original_text := text
            processed_text := er.2.1
            entities := er.1
            contexts := contexts
            pseudonym_table := pseudonymMap er.1 }, er.2.2)
  | none => none

/-- A stateless replacement rule, as used by `anonymize`
(`lambda label, span: label_to_tag_mapping.get(label, span)` is pure). -/
def pureRule (f : List Char → List Char → List Char) :
    Unit → List Char → List Char → List Char × Unit :=
  fun _ label span => (f label span, ())

/-- `utils.replace_spans`: sort `(start, end, replacement)` triples by
`start` descending and splice each one. -/
def replace_spans (text : List Char) (spans : List (Int × Int × List Char)) : List Char :=
  (spans.insertionSort (fun a b => b.1 ≤ a.1)).foldl
    (fun t sp => pyTakeTo t sp.1 ++ sp.2.2 ++ pyDropFrom t sp.2.1) text

/-- The per-label counter value `self.counter[label]` (`defaultdict(int)`
defaults to `0`). -/
def counterVal (s : Pseudonymizer) (label : List Char) : Nat :=
  dictGetD s.counter label 0

/-- The `Pseudonymizer` states that the program can actually put the
registry in: the fresh `__init__` state followed by any sequence of
`generate` calls. -/
inductive Reachable : Pseudonymizer → Prop
  | init : Reachable Pseudonymizer.init
  | step (s : Pseudonymizer) (label x : List Char) :
      Reachable s → Reachable (s.generate label x).2

/-- The claimed registry invariant: the forward and the reverse table are
mutual inverses, distinct original texts map to distinct pseudonyms, and
both tables have the same number of entries. -/
def RegistryInv (s : Pseudonymizer) : Prop :=
  (∀ e ∈ s.pseudonym_table, alookup e.2 s.reverse_table = some e.1) ∧
  (∀ e ∈ s.reverse_table, alookup e.2 s.pseudonym_table = some e.1) ∧
  (∀ e₁ ∈ s.pseudonym_table, ∀ e₂ ∈ s.pseudonym_table, e₁.2 = e₂.2 → e₁.1 = e₂.1) ∧
  s.pseudonym_table.length = s.reverse_table.length

/-- Concatenation of the first components of a piece list (the current
text represented as a list of pieces). -/
def piecesJoin (ps : List (List Char × List Char)) : List Char :=
  (ps.map Prod.fst).flatten

/-- `SafePieces p o ps` says that in the text `piecesJoin ps` the pattern
`p` occurs exactly as the pieces `(p, o)` (the slots carrying `p`) and
nowhere else: no match of `p` starts inside any other piece (in particular
none straddles a piece boundary).  The second component of each piece is
what the piece becomes after `text.replace(p, o)`. -/
inductive SafePieces (p o : List Char) : List (List Char × List Char) → Prop
  | nil : SafePieces p o []
  | slot (rest : List (List Char × List Char)) :
      SafePieces p o rest → SafePieces p o ((p, o) :: rest)
  | keep (c : List Char) (rest : List (List Char × List Char)) :
      (∀ i, i < c.length → ¬ p <+: (c.drop i ++ piecesJoin rest)) →
      SafePieces p o rest → SafePieces p o ((c, c) :: rest)

/-- Content of the slot with table index `t` after the first `k` table
entries have been processed by `reverse`: the original text once its entry
is processed, the pseudonym before. -/
def slotContent (table : List (List Char × List Char)) (k t : Nat) : List Char :=
  match table.get? t with
  | some po => if t < k then po.2 else po.1
  | none => []

/-- The intermediate text of `reverse` after the first `k` table entries
have been processed, for a text decomposed as a leading gap `g0` followed
by alternating slots (carrying a table index) and gaps. -/
def hybrid (table : List (List Char × List Char)) (k : Nat) (g0 : List Char)
    (slots : List (Nat × List Char)) : List Char :=
  g0 ++ (slots.map (fun sl => slotContent table k sl.1 ++ sl.2)).flatten

/-- The piece decomposition of `hybrid table k g0 slots`, each piece paired
with its content after step `k` is processed. -/
def stepPieces (table : List (List Char × List Char)) (k : Nat) (g0 : List Char)
    (slots : List (Nat × List Char)) : List (List Char × List Char) :=
  (g0, g0) :: slots.flatMap
    (fun sl => [(slotContent table k sl.1, slotContent table (k + 1) sl.1), (sl.2, sl.2)])

/-- Numeric value of a decimal digit character. -/
def charVal (c : Char) : Nat := c.toNat - 48

/-- Numeric value of a decimal digit string (used to invert `natChars`). -/
def digitsVal (l : List Char) : Nat :=
  l.foldl (fun acc c => acc * 10 + charVal c) 0

/-- Strengthened registry invariant used to prove `RegistryInv`: the
reverse table is exactly the forward table with the pairs swapped, both
key and value columns of the forward table are duplicate-free, and every
registered pseudonym has the shape `label ++ "_" ++ digits(c)` with
`1 <= c <= counter[label]` (which is what makes a freshly generated
pseudonym distinct from all registered ones). -/
def StrongInv (s : Pseudonymizer) : Prop :=
  s.reverse_table = s.pseudonym_table.map (fun e => (e.2, e.1)) ∧
  (s.pseudonym_table.map Prod.fst).Nodup ∧
  (s.pseudonym_table.map Prod.snd).Nodup ∧
  ∀ e ∈ s.pseudonym_table, ∃ lb c, 1 ≤ c ∧ c ≤ counterVal s lb ∧ e.2 = mkPseudonym lb c

/-- The entity built for the single candidate `(0, 2, "L", "ab")` of the
text `"ab cd"` (used as the concrete instance of the context-bounds
property). -/
def sampleEntity : Entity :=
  { label := "L".toList
    text := "ab".toList
    replacement_text := "X".toList
    detection_confidence := 0
    char_position := { start := 0, stop := 2 }
    word_position := { start := 0, stop := 1 } }

theorem alookup_append {α β : Type} [DecidableEq α] (k : α) (l₁ l₂ : List (α × β)) :
    alookup k (l₁ ++ l₂) = (alookup k l₁).or (alookup k l₂) := by
  induction l₁ with
  | nil => simp [alookup]
  | cons kv rest ih =>
    by_cases h : kv.1 = k <;> simp [alookup, h, ih]

theorem alookup_map_update {α β : Type} [DecidableEq α] (k : α) (v : β)
    (d : List (α × β)) (h : (alookup k d).isSome) :
    alookup k (d.map (fun kv => if kv.1 = k then (k, v) else kv)) = some v := by
  induction d with
  | nil => simp [alookup] at h
  | cons kv rest ih =>
    by_cases hk : kv.1 = k
    · simp [alookup, hk]
    · simp only [alookup, hk, if_false] at h
      simp only [List.map_cons, alookup, hk, if_false]
      exact ih h

theorem dictSet_fresh {α β : Type} [DecidableEq α] (k : α) (v : β)
    (d : List (α × β)) (h : alookup k d = none) :
    dictSet d k v = d ++ [(k, v)] := by
  simp [dictSet, h]

theorem alookup_dictSet_self {α β : Type} [DecidableEq α] (k : α) (v : β)
    (d : List (α × β)) :
    alookup k (dictSet d k v) = some v := by
  by_cases h : (alookup k d).isSome
  · simp only [dictSet, h, if_true]
    exact alookup_map_update k v d h
  · have hn : alookup k d = none := by
      cases halt : alookup k d with
      | none => rfl
      | some v' => rw [halt] at h; simp at h
    rw [dictSet_fresh k v d hn, alookup_append, hn]
    simp [alookup]

theorem buildLoop_length {σ : Type} (ws : List (Nat × Nat))
    (rule : σ → List Char → List Char → List Char × σ) :
    ∀ (l : List RawEntity) (st : σ) (red : List Char),
      (buildLoop ws rule l st red).1.length = l.length := by
  intro l
  induction l with
  | nil => intro st red; rfl
  | cons raw rest ih => intro st red; simp [buildLoop, ih]

theorem buildLoop_map_start {σ : Type} (ws : List (Nat × Nat))
    (rule : σ → List Char → List Char → List Char × σ) :
    ∀ (l : List RawEntity) (st : σ) (red : List Char),
      ((buildLoop ws rule l st red).1.map fun e => e.char_position.start) =
        l.map fun r => r.start := by
  intro l
  induction l with
  | nil => intro st red; rfl
  | cons raw rest ih => intro st red; simp [buildLoop, ih]

theorem findInside_eq_none (c : Int) (spans : List (Nat × Nat))
    (h : ∀ sp ∈ spans, ¬ ((sp.1 : Int) ≤ c ∧ c < (sp.2 : Int))) :
    findInside c spans = none := by
  induction spans with
  | nil => rfl
  | cons sp rest ih =>
    rw [findInside, if_neg (h sp (List.mem_cons_self sp rest)),
      ih (fun sp' h' => h sp' (List.mem_cons_of_mem _ h'))]
    rfl

theorem findBefore_eq_none (c : Int) (spans : List (Nat × Nat))
    (h : ∀ sp ∈ spans, ¬ c < (sp.1 : Int)) :
    findBefore c spans = none := by
  induction spans with
  | nil => rfl
  | cons sp rest ih =>
    rw [findBefore, if_neg (h sp (List.mem_cons_self sp rest)),
      ih (fun sp' h' => h sp' (List.mem_cons_of_mem _ h'))]
    rfl

theorem findInside_eq_some (c : Int) :
    ∀ (spans : List (Nat × Nat)) (i : Nat) (h : i < spans.length),
      (∀ j (hj : j < spans.length), j < i →
        ¬ (((spans.get ⟨j, hj⟩).1 : Int) ≤ c ∧ c < ((spans.get ⟨j, hj⟩).2 : Int))) →
      (((spans.get ⟨i, h⟩).1 : Int) ≤ c ∧ c < ((spans.get ⟨i, h⟩).2 : Int)) →
      findInside c spans = some i := by
  intro spans
  induction spans with
  | nil => intro i h; exact absurd h (by simp)
  | cons sp rest ih =>
    intro i h hprev hin
    match i with
    | 0 =>
      have hin' : (sp.1 : Int) ≤ c ∧ c < (sp.2 : Int) := by simpa using hin
      rw [findInside, if_pos hin']
    | j + 1 =>
      have hsp : ¬ ((sp.1 : Int) ≤ c ∧ c < (sp.2 : Int)) := by
        have := hprev 0 (by simp) (Nat.succ_pos j)
        simpa using this
      rw [findInside, if_neg hsp]
      have hrec := ih j (by simpa using h)
        (fun j' hj' hlt => by
          have := hprev (j' + 1) (by simpa using Nat.succ_lt_succ hj') (Nat.succ_lt_succ hlt)
          simpa using this)
        (by simpa using hin)
      rw [hrec]
      rfl

theorem findBefore_eq_some (c : Int) :
    ∀ (spans : List (Nat × Nat)) (i : Nat) (h : i < spans.length),
      (∀ j (hj : j < spans.length), j < i → ¬ c < ((spans.get ⟨j, hj⟩).1 : Int)) →
      c < ((spans.get ⟨i, h⟩).1 : Int) →
      findBefore c spans = some i := by
  intro spans
  induction spans with
  | nil => intro i h; exact absurd h (by simp)
  | cons sp rest ih =>
    intro i h hprev hlt
    match i with
    | 0 =>
      have hlt' : c < (sp.1 : Int) := by simpa using hlt
      rw [findBefore, if_pos hlt']
    | j + 1 =>
      have hsp : ¬ c < (sp.1 : Int) := by
        have := hprev 0 (by simp) (Nat.succ_pos j)
        simpa using this
      rw [findBefore, if_neg hsp]
      have hrec := ih j (by simpa using h)
        (fun j' hj' hl => by
          have := hprev (j' + 1) (by simpa using Nat.succ_lt_succ hj') (Nat.succ_lt_succ hl)
          simpa using this)
        (by simpa using hlt)
      rw [hrec]
      rfl

theorem pyResolve_of_bounds (n : Nat) (i : Int) (h0 : 0 ≤ i) (hn : i ≤ (n : Int)) :
    pyResolve n i = i.toNat := by
  unfold pyResolve
  rw [if_neg (by omega)]
  have : i.toNat ≤ n := by omega
  exact Nat.min_eq_left this

theorem length_pyTakeTo (s : List Char) (b : Int) (h0 : 0 ≤ b)
    (hn : b ≤ (s.length : Int)) : (pyTakeTo s b).length = b.toNat := by
  unfold pyTakeTo
  rw [pyResolve_of_bounds s.length b h0 hn, List.length_take]
  omega

theorem length_pyDropFrom (s : List Char) (a : Int) (h0 : 0 ≤ a)
    (hn : a ≤ (s.length : Int)) : (pyDropFrom s a).length = s.length - a.toNat := by
  unfold pyDropFrom
  rw [pyResolve_of_bounds s.length a h0 hn, List.length_drop]

theorem length_pySlice (s : List Char) (a b : Int) (ha0 : 0 ≤ a)
    (han : a ≤ (s.length : Int)) (hb0 : 0 ≤ b) (hbn : b ≤ (s.length : Int)) :
    (pySlice s a b).length = b.toNat - a.toNat := by
  unfold pySlice
  rw [pyResolve_of_bounds s.length a ha0 han, pyResolve_of_bounds s.length b hb0 hbn,
    List.length_drop, List.length_take]
  omega

theorem buildLoop_redacted_length (ws : List (Nat × Nat))
    (f : List Char → List Char → List Char) :
    ∀ (l : List RawEntity) (red : List Char),
      List.Pairwise (fun a b : RawEntity => b.stop ≤ a.start) l →
      (∀ r ∈ l, 0 ≤ r.start ∧ r.start < r.stop) →
      (∀ hd ∈ l.head?, hd.stop ≤ (red.length : Int)) →
      ((buildLoop ws (pureRule f) l () red).2.1.length : Int) =
        (red.length : Int) +
          (l.map fun r => ((f r.label r.text).length : Int) - (r.stop - r.start)).sum := by
  intro l
  induction l with
  | nil => intro red _ _ _; simp [buildLoop]
  | cons raw rest ih =>
    intro red hpw hval hhd
    have hstop : raw.stop ≤ (red.length : Int) := hhd raw rfl
    have hraw := hval raw (List.mem_cons_self raw rest)
    have hlen' : ((pyTakeTo red raw.start ++ f raw.label raw.text ++
        pyDropFrom red raw.stop).length : Int) =
        (red.length : Int) + ((f raw.label raw.text).length : Int) -
          (raw.stop - raw.start) := by
      rw [List.length_append, List.length_append,
        length_pyTakeTo red raw.start hraw.1 (by omega),
        length_pyDropFrom red raw.stop (by omega) hstop]
      omega
    have hpw' : List.Pairwise (fun a b : RawEntity => b.stop ≤ a.start) rest :=
      hpw.of_cons
    have hhd' : ∀ hd ∈ rest.head?, hd.stop ≤
        ((pyTakeTo red raw.start ++ f raw.label raw.text ++
          pyDropFrom red raw.stop).length : Int) := by
      intro hd hmem
      have h₁ : hd ∈ rest := List.mem_of_mem_head? hmem
      have h₂ : hd.stop ≤ raw.start := (List.pairwise_cons.mp hpw).1 hd h₁
      omega
    have hrec := ih (pyTakeTo red raw.start ++ f raw.label raw.text ++
        pyDropFrom red raw.stop) hpw'
      (fun r hr => hval r (List.mem_cons_of_mem _ hr)) hhd'
    simp only [buildLoop, pureRule, List.map_cons, List.sum_cons]
    rw [hrec, hlen']
    ring

/-- Claim C3 (confirmed): for valid, pairwise non-overlapping candidate
spans whose `text` field is the corresponding slice of the input, the
length of the processed text equals `len(text)` plus the sum over the
candidates of (length of the replacement minus length of the original
span text). -/
theorem c3_processed_text_length (text : List Char) (raws : List RawEntity)
    (f : List Char → List Char → List Char)
    (hval : ∀ r ∈ raws, 0 ≤ r.start ∧ r.start < r.stop ∧ r.stop ≤ (text.length : Int))
    (htext : ∀ r ∈ raws, r.text = pySlice text r.start r.stop)
    (hsep : List.Pairwise
      (fun a b : RawEntity => a.stop ≤ b.start ∨ b.stop ≤ a.start) raws) :
    ((buildEntities text raws (pureRule f) ()).2.1.length : Int) =
      (text.length : Int) +
        (raws.map fun r => ((f r.label r.text).length : Int) - (r.text.length : Int)).sum := by
  have hperm : (sortByStartDesc raws).Perm raws := by
    unfold sortByStartDesc
    exact List.perm_insertionSort _ raws
  have hmems : ∀ r ∈ sortByStartDesc raws, r ∈ raws := fun r hr => hperm.mem_iff.mp hr
  have hsorted : List.Pairwise (fun a b : RawEntity => b.start ≤ a.start)
      (sortByStartDesc raws) := by
    letI : IsTotal RawEntity (fun a b => b.start ≤ a.start) :=
      ⟨fun a b => le_total b.start a.start⟩
    letI : IsTrans RawEntity (fun a b => b.start ≤ a.start) :=
      ⟨fun a b c h₁ h₂ => le_trans h₂ h₁⟩
    exact List.sorted_insertionSort _ raws
  have hsep' : List.Pairwise
      (fun a b : RawEntity => a.stop ≤ b.start ∨ b.stop ≤ a.start) (sortByStartDesc raws) :=
    (hperm.pairwise_iff (fun h => h.symm)).mpr hsep
  have hchain : List.Pairwise (fun a b : RawEntity => b.stop ≤ a.start)
      (sortByStartDesc raws) := by
    have hand := hsorted.and hsep'
    refine hand.imp_of_mem ?_
    intro a b ha hb hab
    rcases hab.2 with h | h
    · exfalso
      have hva := hval a (hmems a ha)
      have hvb := hval b (hmems b hb)
      have := hab.1
      omega
    · exact h
  have hhd : ∀ hd ∈ (sortByStartDesc raws).head?, hd.stop ≤ (text.length : Int) := by
    intro hd hmem
    have h₁ : hd ∈ sortByStartDesc raws := List.mem_of_mem_head? hmem
    exact (hval hd (hmems hd h₁)).2.2
  have hmain := buildLoop_redacted_length (computeWordSpans text) f (sortByStartDesc raws)
    text hchain (fun r hr => ⟨(hval r (hmems r hr)).1, (hval r (hmems r hr)).2.1⟩) hhd
  rw [buildEntities, hmain]
  congr 1
  have hsum : ∀ (l : List RawEntity), (∀ r ∈ l, r ∈ raws) →
      (l.map fun r => ((f r.label r.text).length : Int) - (r.stop - r.start)).sum =
      (l.map fun r => ((f r.label r.text).length : Int) - (r.text.length : Int)).sum := by
    intro l hl
    induction l with
    | nil => rfl
    | cons a t iht =>
      simp only [List.map_cons, List.sum_cons]
      have hva := hval a (hl a (List.mem_cons_self a t))
      have hta := htext a (hl a (List.mem_cons_self a t))
      have hlen : (a.text.length : Int) = a.stop - a.start := by
        rw [hta, length_pySlice text a.start a.stop hva.1 (by omega) (by omega) hva.2.2]
        omega
      rw [hlen, iht (fun r hr => hl r (List.mem_cons_of_mem _ hr))]
  rw [hsum (sortByStartDesc raws) hmems]
  exact List.Perm.sum_eq (hperm.map _)

/-- Witness for C3 at a concrete input: the spec scenario
`"Jean habite à Paris."` with the spans of `"Jean"` and `"Paris"`;
the anonymization rule maps PERSON to `[NOM]` and LOC to `[LIEU]`. -/
theorem c3_witness :
    ((buildEntities "Jean habite à Paris.".toList
        [{ start := 0, stop := 4, label := "PERSON".toList, text := "Jean".toList,
           score? := none },
         { start := 14, stop := 19, label := "LOC".toList, text := "Paris".toList,
           score? := none }]
        (pureRule fun l _ => if l = "PERSON".toList then "[NOM]".toList
          else "[LIEU]".toList) ()).2.1.length : Int) =
      (("Jean habite à Paris.".toList.length : Int)) +
        ([{ start := 0, stop := 4, label := "PERSON".toList, text := "Jean".toList,
            score? := (none : Option Rat) },
          { start := 14, stop := 19, label := "LOC".toList, text := "Paris".toList,
            score? := none }].map
          fun r : RawEntity =>
            (((if r.label = "PERSON".toList then "[NOM]".toList
              else "[LIEU]".toList).length : Int)) - (r.text.length : Int)).sum :=
  c3_processed_text_length "Jean habite à Paris.".toList _ _
    (by decide) (by decide) (by decide)

/-- Claim C5 (confirmed): for a non-empty list of valid
(`start < end`), ascending, non-overlapping word spans and any
non-negative character index: an index strictly inside a span maps to that
span's index; an index preceding all spans or lying in the gap before span
`i` maps to `max(0, i - 1)`; an index at or past the end of the last span
maps to `len(word_spans) - 1`. -/
theorem c5_char_to_word_index_spec (c : Nat) (word_spans : List (Nat × Nat))
    (hne : word_spans ≠ [])
    (hsort : List.Pairwise (fun a b => a.2 ≤ b.1) word_spans)
    (hval : ∀ sp ∈ word_spans, sp.1 < sp.2) :
    (∀ i (h : i < word_spans.length),
        (word_spans.get ⟨i, h⟩).1 ≤ c → c < (word_spans.get ⟨i, h⟩).2 →
        char_to_word_index (c : Int) word_spans = (i : Int)) ∧
    (∀ i (h : i < word_spans.length),
        c < (word_spans.get ⟨i, h⟩).1 →
        (∀ j (hj : j < word_spans.length), j < i → (word_spans.get ⟨j, hj⟩).2 ≤ c) →
        char_to_word_index (c : Int) word_spans = max 0 ((i : Int) - 1)) ∧
    ((word_spans.getLast hne).2 ≤ c →
        char_to_word_index (c : Int) word_spans = (word_spans.length : Int) - 1) := by
  have hpw := List.pairwise_iff_get.mp hsort
  refine ⟨?_, ?_, ?_⟩
  · intro i h hle hlt
    have hfi : findInside (c : Int) word_spans = some i := by
      apply findInside_eq_some (c : Int) word_spans i h
      · intro j hj hji
        have hij := hpw ⟨j, hj⟩ ⟨i, h⟩ hji
        intro hcon
        have h₂ : (word_spans.get ⟨j, hj⟩).2 ≤ c := le_trans hij hle
        omega
      · constructor <;> omega
    simp [char_to_word_index, hfi]
  · intro i h hlt hprev
    have hfi : findInside (c : Int) word_spans = none := by
      apply findInside_eq_none
      intro sp hsp
      obtain ⟨⟨j, hj⟩, rfl⟩ := List.mem_iff_get.mp hsp
      intro hcon
      rcases Nat.lt_or_ge j i with hji | hji
      · have h₂ := hprev j hj hji
        omega
      · rcases Nat.eq_or_lt_of_le hji with rfl | hji'
        · omega
        · have h₁ := hpw ⟨i, h⟩ ⟨j, hj⟩ hji'
          have h₂ := hval (word_spans.get ⟨i, h⟩) (word_spans.get_mem i h)
          omega
    have hfb : findBefore (c : Int) word_spans = some i := by
      apply findBefore_eq_some (c : Int) word_spans i h
      · intro j hj hji
        have h₂ := hprev j hj hji
        have h₃ := hval (word_spans.get ⟨j, hj⟩) (word_spans.get_mem j hj)
        omega
      · omega
    simp [char_to_word_index, hfi, hfb]
  · intro hlast
    have hlen : 0 < word_spans.length := List.length_pos.mpr hne
    have hlastget : word_spans.getLast hne =
        word_spans.get ⟨word_spans.length - 1, by omega⟩ := by
      rw [List.getLast_eq_getElem]
      simp [List.get_eq_getElem]
    have hall : ∀ j (hj : j < word_spans.length), (word_spans.get ⟨j, hj⟩).2 ≤ c := by
      intro j hj
      rcases Nat.eq_or_lt_of_le (Nat.le_pred_of_lt hj) with hj' | hj'
      · have : (⟨j, hj⟩ : Fin word_spans.length) =
            ⟨word_spans.length - 1, by omega⟩ := Fin.ext hj'
        rw [this]
        rw [hlastget] at hlast
        exact hlast
      · have h₁ := hpw ⟨j, hj⟩ ⟨word_spans.length - 1, by omega⟩ hj'
        have h₂ := hval (word_spans.get ⟨word_spans.length - 1, by omega⟩)
          (word_spans.get_mem _ _)
        rw [hlastget] at hlast
        omega
    have hfi : findInside (c : Int) word_spans = none := by
      apply findInside_eq_none
      intro sp hsp
      obtain ⟨⟨j, hj⟩, rfl⟩ := List.mem_iff_get.mp hsp
      have h₂ := hall j hj
      intro hcon
      omega
    have hfb : findBefore (c : Int) word_spans = none := by
      apply findBefore_eq_none
      intro sp hsp
      obtain ⟨⟨j, hj⟩, rfl⟩ := List.mem_iff_get.mp hsp
      have h₂ := hall j hj
      have h₃ := hval (word_spans.get ⟨j, hj⟩) (word_spans.get_mem j hj)
      omega
    simp [char_to_word_index, hfi, hfb]

/-- Witness for C5 at a concrete input: the spans `[(0,2),(4,6)]` with
character index `5` (inside the second span), `3` (in the gap), and `7`
(past the last span) are covered by the instantiated conjuncts. -/
theorem c5_witness :
    (∀ i (h : i < [(0, 2), (4, 6)].length),
        (([(0, 2), (4, 6)].get ⟨i, h⟩).1 ≤ 5 → 5 < ([(0, 2), (4, 6)].get ⟨i, h⟩).2 →
        char_to_word_index ((5 : Nat) : Int) [(0, 2), (4, 6)] = (i : Int))) ∧
    (∀ i (h : i < [(0, 2), (4, 6)].length),
        5 < ([(0, 2), (4, 6)].get ⟨i, h⟩).1 →
        (∀ j (hj : j < [(0, 2), (4, 6)].length), j < i →
          ([(0, 2), (4, 6)].get ⟨j, hj⟩).2 ≤ 5) →
        char_to_word_index ((5 : Nat) : Int) [(0, 2), (4, 6)] = max 0 ((i : Int) - 1)) ∧
    (([(0, 2), (4, 6)].getLast (by decide)).2 ≤ 5 →
        char_to_word_index ((5 : Nat) : Int) [(0, 2), (4, 6)] =
          ([(0, 2), (4, 6)].length : Int) - 1) :=
  c5_char_to_word_index_spec 5 [(0, 2), (4, 6)] (by decide) (by decide) (by decide)

/-- Claim C8 (counterexample): on an empty word-span sequence the mapper
returns `-1` (the Python `len(word_spans) - 1` fallback), not the sentinel
`0` stated by the claim. -/
theorem c8_counterexample :
    char_to_word_index 0 [] = -1 ∧ char_to_word_index 0 [] ≠ 0 := by
  decide

/-- Claim C8 (amended): called with an empty word-span sequence,
`_char_to_word_index` returns the defined sentinel `-1` (never failing),
for every character index. -/
theorem c8_char_to_word_index_empty (char_idx : Int) :
    char_to_word_index char_idx [] = -1 := by
  simp [char_to_word_index, findInside, findBefore]

/-- Claim C6 (counterexample): a candidate whose span is invalid
(`start = 5 >= end = 3`, both outside `[0, len("ab")]`) is not rejected:
the construction still creates an entity for it and splices its
replacement into the text (Python slice semantics clamp the indices,
yielding `"ab" + "X"`). -/
theorem c6_counterexample :
    (buildEntities "ab".toList
        [{ start := 5, stop := 3, label := "L".toList, text := "q".toList, score? := none }]
        (pureRule fun _ _ => "X".toList) ()).1.length = 1 ∧
    (buildEntities "ab".toList
        [{ start := 5, stop := 3, label := "L".toList, text := "q".toList, score? := none }]
        (pureRule fun _ _ => "X".toList) ()).2.1 = "abX".toList := by
  decide

/-- Claim C6 (amended): `_build_processing` performs no span validation:
every candidate — valid or invalid — is processed (one entity per
candidate, its splice applied under Python's clamping slice semantics) and
the batch never aborts; in particular all valid candidates are processed. -/
theorem c6_no_candidate_skipped {σ : Type} (text : List Char) (raws : List RawEntity)
    (rule : σ → List Char → List Char → List Char × σ) (st : σ) :
    (buildEntities text raws rule st).1.length = raws.length := by
  rw [buildEntities, buildLoop_length]
  exact (List.perm_insertionSort (fun a b => b.start ≤ a.start) raws).length_eq

/-- Claim C9 (counterexample): for candidates given in ascending input
order (starts `0` then `5`), the returned entity sequence carries starts
`[5, 0]`: it is in right-to-left replacement order, not input/detection
order. -/
theorem c9_counterexample :
    ((buildEntities "aaaa bbbb".toList
        [{ start := 0, stop := 4, label := "A".toList, text := "aaaa".toList, score? := none },
         { start := 5, stop := 9, label := "B".toList, text := "bbbb".toList, score? := none }]
        (pureRule fun _ s => s) ()).1.map fun e => e.char_position.start) = [5, 0] ∧
    ([{ start := 0, stop := 4, label := "A".toList, text := "aaaa".toList, score? := (none : Option Rat) },
      { start := 5, stop := 9, label := "B".toList, text := "bbbb".toList, score? := none }].map
        fun r : RawEntity => r.start) = [0, 5] := by
  decide

/-- Claim C9 (amended): the entities sequence of the result is ordered by
descending `char_position.start` — the right-to-left replacement
(processing) order — not the input/detection order; callers needing input
order must re-sort. -/
theorem c9_entities_in_replacement_order {σ : Type} (text : List Char)
    (raws : List RawEntity) (rule : σ → List Char → List Char → List Char × σ) (st : σ) :
    List.Pairwise (fun a b => b.char_position.start ≤ a.char_position.start)
      (buildEntities text raws rule st).1 := by
  have hmap := buildLoop_map_start (computeWordSpans text) rule (sortByStartDesc raws) st text
  have hsorted : List.Pairwise (fun a b : RawEntity => b.start ≤ a.start)
      (sortByStartDesc raws) := by
    letI : IsTotal RawEntity (fun a b => b.start ≤ a.start) :=
      ⟨fun a b => le_total b.start a.start⟩
    letI : IsTrans RawEntity (fun a b => b.start ≤ a.start) :=
      ⟨fun a b c h₁ h₂ => le_trans h₂ h₁⟩
    exact List.sorted_insertionSort _ raws
  have h₁ : List.Pairwise (fun x y : Int => y ≤ x)
      ((sortByStartDesc raws).map fun r => r.start) :=
    List.pairwise_map.mpr hsorted
  rw [← hmap] at h₁
  exact List.pairwise_map.mp h₁

/-- Claim C4 (confirmed): starting from any registry state in which the
original text `x` has no pseudonym yet, two successive
`generate(label, x)` calls return the same pseudonym, and the per-label
counter is incremented exactly once across the two calls (it is already at
its final value after the first call). -/
theorem c4_generate_idempotent (s : Pseudonymizer) (label x : List Char)
    (hfresh : alookup x s.pseudonym_table = none) :
    (s.generate label x).1 = ((s.generate label x).2.generate label x).1 ∧
    counterVal (s.generate label x).2 label = counterVal s label + 1 ∧
    counterVal ((s.generate label x).2.generate label x).2 label =
      counterVal s label + 1 := by
  have h₁ : s.generate label x =
      (mkPseudonym label (counterVal s label + 1),
        { counter := dictSet s.counter label (counterVal s label + 1),
          pseudonym_table :=
            dictSet s.pseudonym_table x (mkPseudonym label (counterVal s label + 1)),
          reverse_table :=
            dictSet s.reverse_table (mkPseudonym label (counterVal s label + 1)) x }) := by
    simp [Pseudonymizer.generate, hfresh, counterVal]
  have h₂ : alookup x (s.generate label x).2.pseudonym_table =
      some (mkPseudonym label (counterVal s label + 1)) := by
    rw [h₁]
    exact alookup_dictSet_self x _ s.pseudonym_table
  have h₃ : (s.generate label x).2.generate label x =
      ((s.generate label x).1, (s.generate label x).2) := by
    rw [Pseudonymizer.generate, h₂, h₁]
  refine ⟨by rw [h₃], ?_, ?_⟩
  · rw [h₁]
    simp only [counterVal, dictGetD, alookup_dictSet_self]
    rfl
  · rw [h₃, h₁]
    simp only [counterVal, dictGetD, alookup_dictSet_self]
    rfl

/-- Witness for C4 at a concrete input: a fresh registry and the entity
`"Jean"` under label `"PERSON"`. -/
theorem c4_witness :
    (Pseudonymizer.init.generate "PERSON".toList "Jean".toList).1 =
      ((Pseudonymizer.init.generate "PERSON".toList "Jean".toList).2.generate
        "PERSON".toList "Jean".toList).1 ∧
    counterVal (Pseudonymizer.init.generate "PERSON".toList "Jean".toList).2
      "PERSON".toList = counterVal Pseudonymizer.init "PERSON".toList + 1 ∧
    counterVal ((Pseudonymizer.init.generate "PERSON".toList "Jean".toList).2.generate
        "PERSON".toList "Jean".toList).2 "PERSON".toList =
      counterVal Pseudonymizer.init "PERSON".toList + 1 :=
  c4_generate_idempotent Pseudonymizer.init "PERSON".toList "Jean".toList (by decide)

theorem decDigit_mem (n : Nat) :
    decDigit n ∈ ['0', '1', '2', '3', '4', '5', '6', '7', '8', '9'] := by
  unfold decDigit
  split <;> simp

theorem decDigit_ne_underscore (n : Nat) : decDigit n ≠ '_' := by
  have h := decDigit_mem n
  intro hc
  rw [hc] at h
  simp at h

theorem charVal_decDigit (n : Nat) (h : n < 10) : charVal (decDigit n) = n := by
  interval_cases n <;> decide

theorem digitsVal_append_single (l : List Char) (c : Char) :
    digitsVal (l ++ [c]) = digitsVal l * 10 + charVal c := by
  unfold digitsVal
  rw [List.foldl_append]
  rfl

theorem natCharsAux_spec (fuel : Nat) :
    ∀ n, n < fuel →
      digitsVal (natCharsAux fuel n) = n ∧ natCharsAux fuel n ≠ [] := by
  induction fuel with
  | zero => intro n h; omega
  | succ fuel ih =>
    intro n h
    by_cases h10 : n < 10
    · simp only [natCharsAux, h10, if_true]
      refine ⟨?_, by simp⟩
      show digitsVal ([] ++ [decDigit n]) = n
      rw [digitsVal_append_single, charVal_decDigit n h10]
      simp [digitsVal]
    · have hdiv : n / 10 < fuel := by omega
      have hrec := ih (n / 10) hdiv
      simp only [natCharsAux, h10, if_false]
      constructor
      · rw [digitsVal_append_single, hrec.1, charVal_decDigit (n % 10) (by omega)]
        omega
      · simp

theorem digitsVal_natChars (n : Nat) : digitsVal (natChars n) = n :=
  (natCharsAux_spec (n + 1) n (by omega)).1

theorem natChars_ne_nil (n : Nat) : natChars n ≠ [] :=
  (natCharsAux_spec (n + 1) n (by omega)).2

theorem natChars_inj {a b : Nat} (h : natChars a = natChars b) : a = b := by
  have := digitsVal_natChars a
  rw [h, digitsVal_natChars b] at this
  omega

theorem underscore_not_mem_natCharsAux (fuel : Nat) :
    ∀ n, '_' ∉ natCharsAux fuel n := by
  induction fuel with
  | zero => intro n; simp [natCharsAux]
  | succ fuel ih =>
    intro n
    by_cases h10 : n < 10
    · simp only [natCharsAux, h10, if_true]
      simp [decDigit_ne_underscore n]
      intro hc
      exact decDigit_ne_underscore n hc.symm
    · simp only [natCharsAux, h10, if_false, List.mem_append]
      intro hc
      rcases hc with hc | hc
      · exact ih (n / 10) hc
      · simp at hc
        exact decDigit_ne_underscore (n % 10) hc.symm

theorem underscore_not_mem_natChars (n : Nat) : '_' ∉ natChars n :=
  underscore_not_mem_natCharsAux (n + 1) n

theorem sep_split_inj {α : Type} (sep : α) :
    ∀ (l₁ l₂ d₁ d₂ : List α), sep ∉ d₁ → sep ∉ d₂ →
      l₁ ++ sep :: d₁ = l₂ ++ sep :: d₂ → l₁ = l₂ ∧ d₁ = d₂ := by
  intro l₁
  induction l₁ with
  | nil =>
    intro l₂ d₁ d₂ h₁ h₂ heq
    cases l₂ with
    | nil =>
      simp only [List.nil_append, List.cons.injEq] at heq
      exact ⟨rfl, heq.2⟩
    | cons b t =>
      exfalso
      simp only [List.nil_append, List.cons_append, List.cons.injEq] at heq
      apply h₁
      rw [heq.2]
      exact List.mem_append_right t (List.mem_cons_self sep d₂)
  | cons a t₁ ih =>
    intro l₂ d₁ d₂ h₁ h₂ heq
    cases l₂ with
    | nil =>
      exfalso
      simp only [List.cons_append, List.nil_append, List.cons.injEq] at heq
      apply h₂
      rw [← heq.2]
      exact List.mem_append_right t₁ (List.mem_cons_self sep d₁)
    | cons b t₂ =>
      simp only [List.cons_append, List.cons.injEq] at heq
      have hrec := ih t₂ d₁ d₂ h₁ h₂ heq.2
      exact ⟨by rw [heq.1, hrec.1], hrec.2⟩

theorem mkPseudonym_inj {l₁ l₂ : List Char} {c₁ c₂ : Nat}
    (h : mkPseudonym l₁ c₁ = mkPseudonym l₂ c₂) : l₁ = l₂ ∧ c₁ = c₂ := by
  unfold mkPseudonym at h
  have := sep_split_inj '_' l₁ l₂ (natChars c₁) (natChars c₂)
    (underscore_not_mem_natChars c₁) (underscore_not_mem_natChars c₂) h
  exact ⟨this.1, natChars_inj this.2⟩

theorem alookup_eq_none_iff {α β : Type} [DecidableEq α] (k : α) (l : List (α × β)) :
    alookup k l = none ↔ ∀ e ∈ l, e.1 ≠ k := by
  induction l with
  | nil => simp [alookup]
  | cons kv rest ih =>
    by_cases h : kv.1 = k
    · simp [alookup, h]
    · simp [alookup, h, ih]

theorem alookup_of_keysNodup {α β : Type} [DecidableEq α] (l : List (α × β))
    (hnd : (l.map Prod.fst).Nodup) : ∀ e ∈ l, alookup e.1 l = some e.2 := by
  induction l with
  | nil => simp
  | cons kv rest ih =>
    intro e he
    rw [List.map_cons, List.nodup_cons] at hnd
    rcases List.mem_cons.mp he with rfl | he'
    · simp [alookup]
    · have hne : kv.1 ≠ e.1 := by
        intro hc
        apply hnd.1
        rw [hc]
        exact List.mem_map_of_mem Prod.fst he'
      simp only [alookup, hne, if_false]
      exact ih hnd.2 e he'

theorem alookup_swap_of_valsNodup {α β : Type} [DecidableEq β] (l : List (α × β))
    (hnd : (l.map Prod.snd).Nodup) : ∀ e ∈ l,
      alookup e.2 (l.map fun e₀ => (e₀.2, e₀.1)) = some e.1 := by
  induction l with
  | nil => simp
  | cons kv rest ih =>
    intro e he
    rw [List.map_cons, List.nodup_cons] at hnd
    rcases List.mem_cons.mp he with rfl | he'
    · simp [alookup]
    · have hne : kv.2 ≠ e.2 := by
        intro hc
        apply hnd.1
        rw [hc]
        exact List.mem_map_of_mem Prod.snd he'
      simp only [List.map_cons, alookup, hne, if_false]
      exact ih hnd.2 e he'

theorem eq_of_snd_eq {α β : Type} (l : List (α × β))
    (hnd : (l.map Prod.snd).Nodup) :
    ∀ e₁ ∈ l, ∀ e₂ ∈ l, e₁.2 = e₂.2 → e₁ = e₂ := by
  induction l with
  | nil => simp
  | cons kv rest ih =>
    intro e₁ h₁ e₂ h₂ hsnd
    rw [List.map_cons, List.nodup_cons] at hnd
    rcases List.mem_cons.mp h₁ with rfl | h₁' <;>
      rcases List.mem_cons.mp h₂ with rfl | h₂'
    · rfl
    · exfalso
      apply hnd.1
      rw [hsnd]
      exact List.mem_map_of_mem Prod.snd h₂'
    · exfalso
      apply hnd.1
      rw [← hsnd]
      exact List.mem_map_of_mem Prod.snd h₁'
    · exact ih hnd.2 e₁ h₁' e₂ h₂' hsnd

theorem alookup_map_update_ne {α β : Type} [DecidableEq α] (k k' : α) (v : β)
    (d : List (α × β)) (hne : k' ≠ k) :
    alookup k' (d.map (fun kv => if kv.1 = k then (k, v) else kv)) = alookup k' d := by
  induction d with
  | nil => rfl
  | cons kv rest ih =>
    have h₀ : ¬ k = k' := fun hc => hne hc.symm
    by_cases h : kv.1 = k
    · simp only [List.map_cons, h, if_true, alookup]
      rw [if_neg h₀, if_neg h₀]
      exact ih
    · simp only [List.map_cons, h, if_false, alookup]
      by_cases h' : kv.1 = k'
      · rw [if_pos h', if_pos h']
      · rw [if_neg h', if_neg h']
        exact ih

theorem alookup_dictSet_ne {α β : Type} [DecidableEq α] (k k' : α) (v : β)
    (d : List (α × β)) (hne : k' ≠ k) :
    alookup k' (dictSet d k v) = alookup k' d := by
  unfold dictSet
  split
  · exact alookup_map_update_ne k k' v d hne
  · rw [alookup_append]
    have h₀ : ¬ k = k' := fun hc => hne hc.symm
    have h₁ : alookup k' [(k, v)] = none := by
      simp [alookup, h₀]
    rw [h₁, Option.or_none]

theorem counterVal_dictSet_self (s : Pseudonymizer) (lb : List Char) (c : Nat) :
    dictGetD (dictSet s.counter lb c) lb 0 = c := by
  unfold dictGetD
  rw [alookup_dictSet_self]
  rfl

theorem strongInv_init : StrongInv Pseudonymizer.init := by
  refine ⟨rfl, ?_, ?_, ?_⟩ <;> simp [Pseudonymizer.init]

theorem strongInv_generate (s : Pseudonymizer) (lb x : List Char)
    (h : StrongInv s) : StrongInv (s.generate lb x).2 := by
  obtain ⟨hswap, hkeys, hvals, hform⟩ := h
  cases hx : alookup x s.pseudonym_table with
  | some p =>
    have hgen : (s.generate lb x).2 = s := by
      simp [Pseudonymizer.generate, hx]
    rw [hgen]
    exact ⟨hswap, hkeys, hvals, hform⟩
  | none =>
    have hgen : (s.generate lb x).2 =
        { counter := dictSet s.counter lb (counterVal s lb + 1),
          pseudonym_table := dictSet s.pseudonym_table x
            (mkPseudonym lb (counterVal s lb + 1)),
          reverse_table := dictSet s.reverse_table
            (mkPseudonym lb (counterVal s lb + 1)) x } := by
      simp [Pseudonymizer.generate, hx, counterVal]
    have hxfresh : ∀ e ∈ s.pseudonym_table, e.1 ≠ x :=
      (alookup_eq_none_iff x s.pseudonym_table).mp hx
    have hpnew : ∀ e ∈ s.pseudonym_table, e.2 ≠ mkPseudonym lb (counterVal s lb + 1) := by
      intro e he hc
      obtain ⟨lb', c', h1, h2, h3⟩ := hform e he
      rw [h3] at hc
      obtain ⟨rfl, rfl⟩ := mkPseudonym_inj hc
      omega
    have hfwd : dictSet s.pseudonym_table x (mkPseudonym lb (counterVal s lb + 1)) =
        s.pseudonym_table ++ [(x, mkPseudonym lb (counterVal s lb + 1))] :=
      dictSet_fresh _ _ _ hx
    have hrevfresh : alookup (mkPseudonym lb (counterVal s lb + 1)) s.reverse_table = none := by
      rw [hswap]
      apply (alookup_eq_none_iff _ _).mpr
      intro e' he'
      obtain ⟨e₀, he₀, rfl⟩ := List.mem_map.mp he'
      exact hpnew e₀ he₀
    have hrev : dictSet s.reverse_table (mkPseudonym lb (counterVal s lb + 1)) x =
        s.reverse_table ++ [(mkPseudonym lb (counterVal s lb + 1), x)] :=
      dictSet_fresh _ _ _ hrevfresh
    rw [hgen]
    refine ⟨?_, ?_, ?_, ?_⟩
    · show dictSet s.reverse_table _ _ = (dictSet s.pseudonym_table _ _).map _
      rw [hfwd, hrev, List.map_append, hswap]
      rfl
    · show ((dictSet s.pseudonym_table _ _).map Prod.fst).Nodup
      rw [hfwd, List.map_append]
      rw [List.nodup_append]
      refine ⟨hkeys, by simp, ?_⟩
      intro a ha hb
      simp only [List.map_cons, List.map_nil, List.mem_cons, List.not_mem_nil,
        or_false] at hb
      obtain ⟨e₀, he₀, rfl⟩ := List.mem_map.mp ha
      exact hxfresh e₀ he₀ hb
    · show ((dictSet s.pseudonym_table _ _).map Prod.snd).Nodup
      rw [hfwd, List.map_append]
      rw [List.nodup_append]
      refine ⟨hvals, by simp, ?_⟩
      intro a ha hb
      simp only [List.map_cons, List.map_nil, List.mem_cons, List.not_mem_nil,
        or_false] at hb
      obtain ⟨e₀, he₀, rfl⟩ := List.mem_map.mp ha
      exact hpnew e₀ he₀ hb
    · intro e he
      have he' : e ∈ s.pseudonym_table ++ [(x, mkPseudonym lb (counterVal s lb + 1))] := by
        rw [← hfwd]
        exact he
      rcases List.mem_append.mp he' with hm | hm
      · obtain ⟨lb', c', h1, h2, h3⟩ := hform e hm
        refine ⟨lb', c', h1, ?_, h3⟩
        by_cases hlb : lb' = lb
        · subst hlb
          show c' ≤ dictGetD (dictSet s.counter lb' (counterVal s lb' + 1)) lb' 0
          rw [counterVal_dictSet_self]
          omega
        · show c' ≤ dictGetD (dictSet s.counter lb (counterVal s lb + 1)) lb' 0
          unfold dictGetD
          rw [alookup_dictSet_ne lb lb' _ s.counter hlb]
          exact h2
      · simp only [List.mem_cons, List.not_mem_nil, or_false] at hm
        subst hm
        refine ⟨lb, counterVal s lb + 1, by omega, ?_, rfl⟩
        show counterVal s lb + 1 ≤ dictGetD (dictSet s.counter lb (counterVal s lb + 1)) lb 0
        rw [counterVal_dictSet_self]

theorem registryInv_of_strongInv {s : Pseudonymizer} (h : StrongInv s) :
    RegistryInv s := by
  obtain ⟨hswap, hkeys, hvals, _⟩ := h
  refine ⟨?_, ?_, ?_, ?_⟩
  · intro e he
    rw [hswap]
    exact alookup_swap_of_valsNodup _ hvals e he
  · intro e he
    rw [hswap] at he
    obtain ⟨e₀, he₀, rfl⟩ := List.mem_map.mp he
    exact alookup_of_keysNodup _ hkeys e₀ he₀
  · intro e₁ h₁ e₂ h₂ hsnd
    have := eq_of_snd_eq _ hvals e₁ h₁ e₂ h₂ hsnd
    rw [this]
  · rw [hswap, List.length_map]

/-- Claim C10 (confirmed): in every registry state the program can reach
(the fresh state followed by any sequence of `generate` calls), the
forward and reverse tables are mutual inverses, distinct original texts
have distinct pseudonyms, and both tables have the same number of
entries. -/
theorem c10_registry_invariant (s : Pseudonymizer) (h : Reachable s) :
    RegistryInv s := by
  have hstrong : StrongInv s := by
    induction h with
    | init => exact strongInv_init
    | step s' lb x _ ih => exact strongInv_generate s' lb x ih
  exact registryInv_of_strongInv hstrong

/-- Witness for C10 at a concrete reachable state: two `generate` calls
(`"Jean"` under PERSON, `"Paris"` under LOC) from the fresh registry. -/
theorem c10_witness :
    RegistryInv ((Pseudonymizer.init.generate "PERSON".toList "Jean".toList).2.generate
      "LOC".toList "Paris".toList).2 :=
  c10_registry_invariant _
    (Reachable.step _ "LOC".toList "Paris".toList
      (Reachable.step _ "PERSON".toList "Jean".toList Reachable.init))

theorem wordSpansGo_bounds :
    ∀ (l : List Char) (i : Nat) (cur : Option Nat),
      (∀ ws ∈ cur, ws < i) →
      ∀ sp ∈ wordSpansGo l i cur, sp.1 < sp.2 ∧ sp.2 ≤ i + l.length := by
  intro l
  induction l with
  | nil =>
    intro i cur hcur sp hsp
    cases cur with
    | none => simp [wordSpansGo] at hsp
    | some ws =>
      simp only [wordSpansGo, List.mem_singleton] at hsp
      subst hsp
      exact ⟨hcur ws rfl, by simp⟩
  | cons c rest ih =>
    intro i cur hcur sp hsp
    cases cur with
    | none =>
      by_cases hsc : isPySpace c
      · simp only [wordSpansGo, hsc, if_true] at hsp
        have := ih (i + 1) none (by simp) sp hsp
        refine ⟨this.1, ?_⟩
        have := this.2
        simp only [List.length_cons]
        omega
      · simp only [wordSpansGo, hsc, if_false] at hsp
        have := ih (i + 1) (some i) (by simp) sp hsp
        refine ⟨this.1, ?_⟩
        have := this.2
        simp only [List.length_cons]
        omega
    | some ws =>
      by_cases hsc : isPySpace c
      · simp only [wordSpansGo, hsc, if_true, List.mem_cons] at hsp
        rcases hsp with rfl | hsp
        · exact ⟨hcur ws rfl, Nat.le_add_right i _⟩
        · have := ih (i + 1) none (by simp) sp hsp
          refine ⟨this.1, ?_⟩
          have := this.2
          simp only [List.length_cons]
          omega
      · simp only [wordSpansGo, hsc, if_false] at hsp
        have := ih (i + 1) (some ws)
          (by intro w hw; cases hw; exact Nat.lt_succ_of_lt (hcur ws rfl)) sp hsp
        refine ⟨this.1, ?_⟩
        have := this.2
        simp only [List.length_cons]
        omega

theorem computeWordSpans_bounds (text : List Char) :
    ∀ sp ∈ computeWordSpans text, sp.1 < sp.2 ∧ sp.2 ≤ text.length := by
  intro sp hsp
  have := wordSpansGo_bounds text 0 none (by simp) sp hsp
  exact ⟨this.1, by omega⟩

theorem findInside_lt (c : Int) :
    ∀ (spans : List (Nat × Nat)) (i : Nat), findInside c spans = some i →
      i < spans.length := by
  intro spans
  induction spans with
  | nil => intro i h; exact Option.noConfusion h
  | cons sp rest ih =>
    intro i h
    rw [findInside] at h
    split at h
    · cases h
      simp
    · cases ho : findInside c rest with
      | none => rw [ho] at h; simp at h
      | some j =>
        rw [ho] at h
        have hj : j + 1 = i := by simpa using h
        have := ih j ho
        simp only [List.length_cons]
        omega

theorem findBefore_lt (c : Int) :
    ∀ (spans : List (Nat × Nat)) (i : Nat), findBefore c spans = some i →
      i < spans.length := by
  intro spans
  induction spans with
  | nil => intro i h; exact Option.noConfusion h
  | cons sp rest ih =>
    intro i h
    rw [findBefore] at h
    split at h
    · cases h
      simp
    · cases ho : findBefore c rest with
      | none => rw [ho] at h; simp at h
      | some j =>
        rw [ho] at h
        have hj : j + 1 = i := by simpa using h
        have := ih j ho
        simp only [List.length_cons]
        omega

theorem char_to_word_index_range (c : Int) (spans : List (Nat × Nat))
    (hne : spans ≠ []) :
    0 ≤ char_to_word_index c spans ∧
      char_to_word_index c spans < (spans.length : Int) := by
  have hlen : 0 < spans.length := List.length_pos.mpr hne
  cases hfi : findInside c spans with
  | some i =>
    have heq : char_to_word_index c spans = (i : Int) := by
      unfold char_to_word_index
      rw [hfi]
    have := findInside_lt c spans i hfi
    rw [heq]
    constructor <;> omega
  | none =>
    cases hfb : findBefore c spans with
    | some i =>
      have heq : char_to_word_index c spans = max 0 ((i : Int) - 1) := by
        unfold char_to_word_index
        rw [hfi, hfb]
      have := findBefore_lt c spans i hfb
      rw [heq]
      constructor
      · exact le_max_left 0 _
      · rw [max_lt_iff]
        constructor <;> omega
    | none =>
      have heq : char_to_word_index c spans = (spans.length : Int) - 1 := by
        unfold char_to_word_index
        rw [hfi, hfb]
      rw [heq]
      constructor <;> omega

theorem buildLoop_word_positions {σ : Type} (ws : List (Nat × Nat))
    (rule : σ → List Char → List Char → List Char × σ) :
    ∀ (l : List RawEntity) (st : σ) (red : List Char),
      ∀ ent ∈ (buildLoop ws rule l st red).1,
        ∃ a b : Int, ent.word_position.start = char_to_word_index a ws ∧
          ent.word_position.stop = char_to_word_index b ws + 1 := by
  intro l
  induction l with
  | nil => intro st red ent hent; simp [buildLoop] at hent
  | cons raw rest ih =>
    intro st red ent hent
    simp only [buildLoop, List.mem_cons] at hent
    rcases hent with rfl | hent
    · exact ⟨raw.start, raw.stop - 1, rfl, rfl⟩
    · exact ih _ _ ent hent

theorem pyIndex_eq_some {α : Type} (l : List α) (i : Int) (h0 : 0 ≤ i)
    (hl : i < (l.length : Int)) :
    pyIndex l i = some (l.get ⟨i.toNat, by omega⟩) := by
  unfold pyIndex
  rw [if_pos h0]
  exact List.get?_eq_get (by omega)

theorem pyIndex_mem {α : Type} (l : List α) (i : Int) (sp : α)
    (h : pyIndex l i = some sp) : sp ∈ l := by
  unfold pyIndex at h
  split at h
  · exact List.get?_mem h
  · split at h
    · exact List.get?_mem h
    · exact Option.noConfusion h

/-- Claim C7 (amended): whenever the text contains at least one word (the
word-span list is non-empty), every context-snippet computation stays in
bounds for every entity and every window size, including windows larger
than the word count: the two accesses into the word-span list use indices
in `[0, total_words)`, the snippet boundaries `cs`/`ce` lie in
`[0, len(text)]` (so the `left`/`right` slices only read inside the
text), and `buildContext` succeeds. -/
theorem c7_context_in_bounds {σ : Type} (text : List Char) (raws : List RawEntity)
    (rule : σ → List Char → List Char → List Char × σ) (st : σ) (window : Nat)
    (hne : computeWordSpans text ≠ []) :
    ∀ ent ∈ (buildEntities text raws rule st).1,
      0 ≤ max 0 (ent.word_position.start - (window : Int)) ∧
      max 0 (ent.word_position.start - (window : Int)) <
        ((computeWordSpans text).length : Int) ∧
      0 ≤ min ((computeWordSpans text).length : Int)
        (ent.word_position.stop + (window : Int)) - 1 ∧
      min ((computeWordSpans text).length : Int)
        (ent.word_position.stop + (window : Int)) - 1 <
        ((computeWordSpans text).length : Int) ∧
      ∃ sp₁ sp₂ : Nat × Nat,
        pyIndex (computeWordSpans text)
          (max 0 (ent.word_position.start - (window : Int))) = some sp₁ ∧
        pyIndex (computeWordSpans text)
          (min ((computeWordSpans text).length : Int)
            (ent.word_position.stop + (window : Int)) - 1) = some sp₂ ∧
        sp₁.1 ≤ text.length ∧ sp₂.2 ≤ text.length ∧
        buildContext text (computeWordSpans text) window ent =
          some { entity := ent
                 left := pySlice text (sp₁.1 : Int) ent.char_position.start
                 right := pySlice text ent.char_position.stop (sp₂.2 : Int)
                 window := window } := by
  intro ent hent
  obtain ⟨a, b, hwa, hwb⟩ :=
    buildLoop_word_positions (computeWordSpans text) rule (sortByStartDesc raws) st text
      ent hent
  have hra := char_to_word_index_range a (computeWordSpans text) hne
  have hrb := char_to_word_index_range b (computeWordSpans text) hne
  have hlen : 0 < (computeWordSpans text).length := List.length_pos.mpr hne
  have h₁ : 0 ≤ max 0 (ent.word_position.start - (window : Int)) := le_max_left 0 _
  have h₂ : max 0 (ent.word_position.start - (window : Int)) <
      ((computeWordSpans text).length : Int) := by
    rw [hwa]
    rcases hra with ⟨hra0, hra1⟩
    rw [max_lt_iff]
    constructor <;> omega
  have h₃ : 0 ≤ min ((computeWordSpans text).length : Int)
      (ent.word_position.stop + (window : Int)) - 1 := by
    rw [hwb]
    rcases hrb with ⟨hrb0, _⟩
    rw [le_sub_iff_add_le, le_min_iff]
    constructor <;> omega
  have h₄ : min ((computeWordSpans text).length : Int)
      (ent.word_position.stop + (window : Int)) - 1 <
      ((computeWordSpans text).length : Int) := by
    have := min_le_left ((computeWordSpans text).length : Int)
      (ent.word_position.stop + (window : Int))
    omega
  refine ⟨h₁, h₂, h₃, h₄, ?_⟩
  have hp₁ := pyIndex_eq_some (computeWordSpans text)
    (max 0 (ent.word_position.start - (window : Int))) h₁ h₂
  have hp₂ := pyIndex_eq_some (computeWordSpans text)
    (min ((computeWordSpans text).length : Int)
      (ent.word_position.stop + (window : Int)) - 1) h₃ h₄
  refine ⟨_, _, hp₁, hp₂, ?_, ?_, ?_⟩
  · have hb := computeWordSpans_bounds text _ (pyIndex_mem _ _ _ hp₁)
    omega
  · have hb := computeWordSpans_bounds text _ (pyIndex_mem _ _ _ hp₂)
    omega
  · simp only [buildContext]
    rw [hp₁, hp₂]

/-- Claim C7 (counterexample): on the whitespace-only text `" "` with one
candidate span, the word-span list is empty and the context computation
indexes it at position `0`, out of bounds (`IndexError` in Python,
embedded as `none`). -/
theorem c7_counterexample :
    build_processing " ".toList
      [{ start := 0, stop := 1, label := "L".toList, text := " ".toList, score? := none }]
      (pureRule fun _ s => s) () 20 = none := by
  decide

/-- Witness for C7 at a concrete input: text `"ab cd"`, one candidate and
window `100` (far exceeding the two words), instantiated at the single
entity the construction produces (`sampleEntity`). -/
theorem c7_witness :
    0 ≤ max 0 (sampleEntity.word_position.start - (100 : Int)) ∧
    max 0 (sampleEntity.word_position.start - (100 : Int)) <
      ((computeWordSpans "ab cd".toList).length : Int) ∧
    0 ≤ min ((computeWordSpans "ab cd".toList).length : Int)
      (sampleEntity.word_position.stop + (100 : Int)) - 1 ∧
    min ((computeWordSpans "ab cd".toList).length : Int)
      (sampleEntity.word_position.stop + (100 : Int)) - 1 <
      ((computeWordSpans "ab cd".toList).length : Int) ∧
    ∃ sp₁ sp₂ : Nat × Nat,
      pyIndex (computeWordSpans "ab cd".toList)
        (max 0 (sampleEntity.word_position.start - (100 : Int))) = some sp₁ ∧
      pyIndex (computeWordSpans "ab cd".toList)
        (min ((computeWordSpans "ab cd".toList).length : Int)
          (sampleEntity.word_position.stop + (100 : Int)) - 1) = some sp₂ ∧
      sp₁.1 ≤ "ab cd".toList.length ∧ sp₂.2 ≤ "ab cd".toList.length ∧
      buildContext "ab cd".toList (computeWordSpans "ab cd".toList) 100 sampleEntity =
        some { entity := sampleEntity
               left := pySlice "ab cd".toList (sp₁.1 : Int)
                 sampleEntity.char_position.start
               right := pySlice "ab cd".toList sampleEntity.char_position.stop
                 (sp₂.2 : Int)
               window := 100 } :=
  c7_context_in_bounds "ab cd".toList
    [{ start := 0, stop := 2, label := "L".toList, text := "ab".toList, score? := none }]
    (pureRule fun _ _ => "X".toList) () 100 (by decide) sampleEntity (by decide)

theorem replaceAllAux_fuel (p o : List Char) (hp : p ≠ []) :
    ∀ (f₁ : Nat) (s : List Char) (f₂ : Nat), s.length ≤ f₁ → s.length ≤ f₂ →
      replaceAllAux p o f₁ s = replaceAllAux p o f₂ s := by
  have hl : 0 < p.length := List.length_pos.mpr hp
  intro f₁
  induction f₁ with
  | zero =>
    intro s f₂ h₁ h₂
    have hs : s = [] := List.eq_nil_of_length_eq_zero (by omega)
    subst hs
    cases f₂ <;> rfl
  | succ f₁ ih =>
    intro s f₂ h₁ h₂
    cases s with
    | nil => cases f₂ <;> rfl
    | cons ch rest =>
      obtain ⟨f₂', rfl⟩ : ∃ f₂', f₂ = f₂' + 1 := by
        cases f₂ with
        | zero => simp at h₂
        | succ f => exact ⟨f, rfl⟩
      by_cases hpre : p.isPrefixOf (ch :: rest) = true
      · simp only [replaceAllAux]
        rw [if_pos hpre, if_pos hpre]
        congr 1
        apply ih
        · simp only [List.length_drop, List.length_cons]
          simp only [List.length_cons] at h₁
          omega
        · simp only [List.length_drop, List.length_cons]
          simp only [List.length_cons] at h₂
          omega
      · simp only [replaceAllAux]
        rw [if_neg hpre, if_neg hpre]
        congr 1
        apply ih
        · simp only [List.length_cons] at h₁
          omega
        · simp only [List.length_cons] at h₂
          omega

theorem replaceAll_nil (p o : List Char) (hp : p ≠ []) : replaceAll p o [] = [] := by
  rw [replaceAll, if_neg hp]
  rfl

theorem replaceAll_prefix (p o s : List Char) (hp : p ≠ []) :
    replaceAll p o (p ++ s) = o ++ replaceAll p o s := by
  obtain ⟨a, p', rfl⟩ : ∃ a p', p = a :: p' := by
    cases p with
    | nil => exact absurd rfl hp
    | cons a p' => exact ⟨a, p', rfl⟩
  rw [replaceAll, if_neg hp, replaceAll, if_neg hp]
  have hshape : (a :: p') ++ s = a :: (p' ++ s) := rfl
  rw [hshape]
  have hlen : (a :: (p' ++ s)).length = (p'.length + s.length) + 1 := by
    simp only [List.length_cons, List.length_append]
  rw [hlen]
  have hpre : (a :: p').isPrefixOf (a :: (p' ++ s)) = true := by
    rw [List.isPrefixOf_iff_prefix, ← hshape]
    exact List.prefix_append (a :: p') s
  simp only [replaceAllAux, hpre, if_true]
  congr 1
  have hdrop : (a :: (p' ++ s)).drop (a :: p').length = s := by
    rw [← hshape]
    exact List.drop_left (a :: p') s
  rw [hdrop]
  exact replaceAllAux_fuel (a :: p') o hp _ s _ (by omega) (le_refl _)

theorem replaceAll_cons_not_prefix (p o : List Char) (hp : p ≠ []) (ch : Char)
    (s : List Char) (hnp : ¬ p <+: (ch :: s)) :
    replaceAll p o (ch :: s) = ch :: replaceAll p o s := by
  rw [replaceAll, if_neg hp, replaceAll, if_neg hp]
  have hb : ¬ p.isPrefixOf (ch :: s) = true := fun hc =>
    hnp (List.isPrefixOf_iff_prefix.mp hc)
  simp only [List.length_cons, replaceAllAux]
  rw [if_neg hb]

theorem piecesJoin_cons (a b : List Char) (rest : List (List Char × List Char)) :
    piecesJoin ((a, b) :: rest) = a ++ piecesJoin rest := by
  simp [piecesJoin]

theorem replaceAll_append_no_match (p o : List Char) (hp : p ≠ []) :
    ∀ (g s : List Char), (∀ i, i < g.length → ¬ p <+: (g.drop i ++ s)) →
      replaceAll p o (g ++ s) = g ++ replaceAll p o s := by
  intro g
  induction g with
  | nil => intro s _; simp
  | cons ch g' ihg =>
    intro s hno
    have h0 : ¬ p <+: (ch :: (g' ++ s)) := by
      have := hno 0 (by simp)
      simpa using this
    rw [List.cons_append, replaceAll_cons_not_prefix p o hp ch (g' ++ s) h0]
    rw [ihg s (fun i hi => by
      have := hno (i + 1) (by simp only [List.length_cons]; omega)
      simpa using this)]
    rfl

theorem replaceAll_safePieces (p o : List Char) (hp : p ≠ []) :
    ∀ (ps : List (List Char × List Char)), SafePieces p o ps →
      replaceAll p o (piecesJoin ps) = (ps.map Prod.snd).flatten := by
  intro ps hsafe
  induction hsafe with
  | nil =>
    rw [show piecesJoin [] = [] from rfl, replaceAll_nil p o hp]
    rfl
  | slot rest _ ih =>
    rw [piecesJoin_cons, replaceAll_prefix p o (piecesJoin rest) hp, ih]
    simp
  | keep c rest hno _ ih =>
    rw [piecesJoin_cons, replaceAll_append_no_match p o hp c (piecesJoin rest) hno, ih]
    simp

theorem piecesJoin_stepPieces (table : List (List Char × List Char)) (k : Nat)
    (g0 : List Char) (slots : List (Nat × List Char)) :
    piecesJoin (stepPieces table k g0 slots) = hybrid table k g0 slots := by
  rw [stepPieces, hybrid, piecesJoin_cons]
  congr 1
  induction slots with
  | nil => rfl
  | cons sl rest ih =>
    rw [List.flatMap_cons, List.map_cons, List.flatten_cons]
    rw [piecesJoin, List.map_append] at *
    simp only [List.map_cons, List.map_nil, List.flatten_append, List.flatten_cons,
      List.flatten_nil, List.append_nil] at *
    rw [ih]

theorem snd_stepPieces (table : List (List Char × List Char)) (k : Nat)
    (g0 : List Char) (slots : List (Nat × List Char)) :
    ((stepPieces table k g0 slots).map Prod.snd).flatten =
      hybrid table (k + 1) g0 slots := by
  rw [stepPieces, hybrid]
  rw [List.map_cons, List.flatten_cons]
  congr 1
  induction slots with
  | nil => rfl
  | cons sl rest ih =>
    rw [List.flatMap_cons, List.map_append, List.map_cons, List.flatten_append,
      List.flatten_cons]
    simp only [List.map_cons, List.map_nil, List.flatten_cons, List.flatten_nil,
      List.append_nil]
    rw [ih]

theorem foldl_replace_steps (table : List (List Char × List Char)) (g0 : List Char)
    (slots : List (Nat × List Char))
    (hne : ∀ po ∈ table, po.1 ≠ [])
    (hsafe : ∀ k, (hk : k < table.length) →
      SafePieces (table.get ⟨k, hk⟩).1 (table.get ⟨k, hk⟩).2
        (stepPieces table k g0 slots)) :
    ∀ (n j : Nat), j + n = table.length →
      (table.drop j).foldl (fun t po => replaceAll po.1 po.2 t)
        (hybrid table j g0 slots) = hybrid table table.length g0 slots := by
  intro n
  induction n with
  | zero =>
    intro j hj
    have hj' : j = table.length := by omega
    subst hj'
    rw [List.drop_length]
    rfl
  | succ n ihn =>
    intro j hj
    have hjlt : j < table.length := by omega
    rw [List.drop_eq_getElem_cons hjlt, List.foldl_cons]
    have hget : table[j] = table.get ⟨j, hjlt⟩ := rfl
    have hstep : replaceAll (table.get ⟨j, hjlt⟩).1 (table.get ⟨j, hjlt⟩).2
        (hybrid table j g0 slots) = hybrid table (j + 1) g0 slots := by
      rw [← piecesJoin_stepPieces table j g0 slots]
      rw [replaceAll_safePieces _ _ (hne _ (table.get_mem j hjlt)) _ (hsafe j hjlt)]
      exact snd_stepPieces table j g0 slots
    rw [hget, hstep]
    exact ihn (j + 1) (by omega)

/-- Claim C2 (amended): reversal round-trip.  A pseudonymized text is the
interleaving `hybrid reverse_table 0 g0 slots` of the untouched gaps of
the original text with the pseudonyms assigned to the replaced spans
(each slot names the index of its table entry); the original text is the
same interleaving with every slot showing its original value,
`hybrid reverse_table (length) g0 slots`.  `reverse` restores the
original text whenever, at each step of the reversal (table entries in
dict insertion order), the pseudonym being substituted occurs in the
current intermediate text only at its own slots — in particular no
pseudonym may be a substring of another pseudonym, of a gap, or of an
already-restored original, and no occurrence may straddle piece
boundaries (the `SafePieces` hypothesis).  The registry's pseudonyms are
non-empty by construction (`label_counter`). -/
theorem c2_reverse_roundtrip (s : Pseudonymizer) (g0 : List Char)
    (slots : List (Nat × List Char))
    (hne : ∀ po ∈ s.reverse_table, po.1 ≠ [])
    (hsafe : ∀ k, (hk : k < s.reverse_table.length) →
      SafePieces (s.reverse_table.get ⟨k, hk⟩).1 (s.reverse_table.get ⟨k, hk⟩).2
        (stepPieces s.reverse_table k g0 slots)) :
    s.reverse (hybrid s.reverse_table 0 g0 slots) =
      hybrid s.reverse_table s.reverse_table.length g0 slots := by
  rw [Pseudonymizer.reverse]
  have h := foldl_replace_steps s.reverse_table g0 slots hne hsafe
    s.reverse_table.length 0 (by omega)
  rw [List.drop_zero] at h
  exact h

/-- Claim C2 (counterexample): pseudonymize `"y x"` with spans `"y"`
(label `P_1`) and `"x"` (label `P`) against a fresh registry.  Right to
left, `"x"` gets pseudonym `P_1` and `"y"` gets `P_1_1`, so the
pseudonymized text is `"P_1_1 P_1"`; no pseudonym occurs in the
surrounding unpseudonymized text (the gap `" "`), satisfying the claim's
precondition, yet `reverse` returns `"x_1 x"`, not the original `"y x"`:
the table entry `P_1` is substituted first and corrupts `P_1_1`. -/
theorem c2_counterexample :
    ((buildEntities "y x".toList
        [{ start := 0, stop := 1, label := "P_1".toList, text := "y".toList, score? := none },
         { start := 2, stop := 3, label := "P".toList, text := "x".toList, score? := none }]
        (fun st lb tx => st.generate lb tx) Pseudonymizer.init).2.1 =
      "P_1_1 P_1".toList) ∧
    ((buildEntities "y x".toList
        [{ start := 0, stop := 1, label := "P_1".toList, text := "y".toList, score? := none },
         { start := 2, stop := 3, label := "P".toList, text := "x".toList, score? := none }]
        (fun st lb tx => st.generate lb tx) Pseudonymizer.init).2.2.reverse
        "P_1_1 P_1".toList = "x_1 x".toList) ∧
    "x_1 x".toList ≠ "y x".toList ∧
    ¬ ("P_1".toList <:+: " ".toList) ∧ ¬ ("P_1_1".toList <:+: " ".toList) := by
  refine ⟨by decide, by decide, by decide, ?_, ?_⟩
  · intro h
    have := h.length_le
    simp at this
  · intro h
    have := h.length_le
    simp at this

/-- Witness for C2 at a concrete input: registry with one table entry
`P_1 ↦ x`, text decomposed as a single slot with empty gaps.  The
reversal turns `hybrid table 0` (the text `"P_1"`) into
`hybrid table 1` (the text `"x"`). -/
theorem c2_witness :
    Pseudonymizer.reverse
        { counter := [], pseudonym_table := [],
          reverse_table := [("P_1".toList, "x".toList)] }
        (hybrid [("P_1".toList, "x".toList)] 0 [] [(0, [])]) =
      hybrid [("P_1".toList, "x".toList)] 1 [] [(0, [])] :=
  c2_reverse_roundtrip
    { counter := [], pseudonym_table := [],
      reverse_table := [("P_1".toList, "x".toList)] } [] [(0, [])]
    (by decide)
    (fun k hk => by
      match k, hk with
      | 0, _ =>
        exact SafePieces.keep [] _ (fun i hi => absurd hi (by simp))
          (SafePieces.slot _ (SafePieces.keep [] _ (fun i hi => absurd hi (by simp))
            SafePieces.nil)))

/-- Claim C1 (failing input): register ten originals `"a"`..`"j"` under
label `PERSON`, so that the reverse table maps `PERSON_1 ↦ "a"`, ...,
`PERSON_10 ↦ "j"` in insertion order.  `"j"`'s pseudonym is `PERSON_10`,
yet reversing the text `"PERSON_10"` yields `"a0"`, not `"j"`: the
substitution of `PERSON_1` (iterated first) corrupts the occurrence of
`PERSON_10`, of which it is a proper substring. -/
theorem c1_reverse_corrupts :
    alookup "j".toList
        (["a", "b", "c", "d", "e", "f", "g", "h", "i", "j"].foldl
          (fun st x => (st.generate "PERSON".toList x.toList).2)
          Pseudonymizer.init).pseudonym_table = some "PERSON_10".toList ∧
    (["a", "b", "c", "d", "e", "f", "g", "h", "i", "j"].foldl
        (fun st x => (st.generate "PERSON".toList x.toList).2)
        Pseudonymizer.init).reverse "PERSON_10".toList = "a0".toList ∧
    "a0".toList ≠ "j".toList := by
  decide

end Anonydoc
